import Mathlib

/-!
Shallow embedding of the sgsfish core (src/game_elements.py, src/game_logic.py,
src/training.py): the attribute data model, the influence-weight table, the
two-pass sequence scorer, the permutation search engine and the batch step of
the training loop.  Python floats are modelled as rationals; the global mutable
weight table (ge.influence_weights, an Optional ParameterDict) is passed
explicitly as an `Option Weights` value; the nested ParameterDict
source -> target -> scope-key -> {attack, defense, support} is represented by
its flattened key paths, exactly as torch state_dict flattens it.
-/

/-- game_elements.AttributeSet: three floats with component-wise addition
(game_elements.py lines 12-42).  TensorAttributeSet (lines 45-76) carries the
same arithmetic over tensors; both collapse to the same rational arithmetic
here, since evaluate_action extracts plain floats from either form. -/
structure AttributeSet where
  attack : ℚ
  defense : ℚ
  support : ℚ
deriving DecidableEq, Repr

instance : Add AttributeSet where
  add a b := ⟨a.attack + b.attack, a.defense + b.defense, a.support + b.support⟩

instance : Zero AttributeSet where
  zero := ⟨0, 0, 0⟩

theorem AttributeSet.add_def (a b : AttributeSet) :
    a + b = ⟨a.attack + b.attack, a.defense + b.defense, a.support + b.support⟩ := rfl

theorem AttributeSet.zero_def : (0 : AttributeSet) = ⟨0, 0, 0⟩ := rfl

theorem AttributeSet.zero_attack : (0 : AttributeSet).attack = 0 := rfl

theorem AttributeSet.zero_defense : (0 : AttributeSet).defense = 0 := rfl

theorem AttributeSet.zero_support : (0 : AttributeSet).support = 0 := rfl

/-- game_elements.ActionEntity (game_elements.py lines 80-92).
potential_influences maps a target entity name to the list of required scopes
(int or None); scope is the optional list of allowed scope options.  The
timing / response metadata is carried but never consumed by the scoring path. -/
structure ActionEntity where
  name : String
  base_attributes : AttributeSet
  potential_influences : List (String × List (Option Int)) := []
  timing : Option Int := none
  response_suit : Option Int := none
  response_rank_range : Option (Int × Int) := none
  scope : Option (List Int) := none
deriving DecidableEq, Repr

/-- game_elements.Hero (game_elements.py lines 94-104). -/
structure Hero where
  name : String
  max_hp : Int
  current_hp : Int
deriving DecidableEq, Repr

/-- Hero.get_hp_ratio: current_hp / max_hp if max_hp > 0 else 0
(game_elements.py lines 102-104). -/
def Hero.get_hp_frac (h : Hero) : ℚ :=
  if h.max_hp > 0 then (h.current_hp : ℚ) / (h.max_hp : ℚ) else 0

/-- game_elements.Player (game_elements.py lines 106-111). -/
structure Player where
  name : String
  hero : Hero
  hand : List ActionEntity := []
deriving DecidableEq, Repr

/-- An action choice: (entity, chosen scope or none), as produced by
find_best_sequence and consumed by both scorers. -/
abbrev Choice := ActionEntity × Option Int

/-- training.get_scope_key (training.py lines 17-19): str(scope) for an int
scope, the distinct string key "NoneScope" for None. -/
def get_scope_key : Option Int → String
  | some n => toString n
  | none => "NoneScope"

/-- Flattened key of one learnable influence parameter:
(source name, target name, scope key). -/
abbrev InfKey := String × String × String

/-- The influence weight table: the flattening of the nested ParameterDict
built by training.initialize_influence_weights, one AttributeSet of learnable
scalars per (source, target, scope-key) path. -/
abbrev Weights := List (InfKey × AttributeSet)

/-- First-binding association lookup into the flattened weight table; mirrors
the chain of .get calls over the nested ParameterDict
(training.py lines 79-96). -/
def lookupWeights : Weights → InfKey → Option AttributeSet
  | [], _ => none
  | (k, v) :: rest, key => if k = key then some v else lookupWeights rest key

/-- training.get_influence_modifier_tensor (training.py lines 66-104): when the
global table is None it prints an error and returns None (the caller then
treats the influence as absent); otherwise it navigates
source -> target -> scope-key with .get, returning None at any miss. -/
def get_influence_modifier (w : Option Weights) (source_name target_name : String)
    (scope : Option Int) : Option AttributeSet :=
  match w with
  | none => none
  | some ws => lookupWeights ws (source_name, target_name, get_scope_key scope)

/-- Association lookup of an entity prototype by name, modelling the
ACTION_ENTITY_PROTOTYPES dict (game_elements.py line 114). -/
def lookup_proto : List (String × ActionEntity) → String → Option ActionEntity
  | [], _ => none
  | (n, e) :: rest, name => if n = name then some e else lookup_proto rest name

/-- training.initialize_influence_weights (training.py lines 21-64): one
parameter triple per (source, target, required-scope) found in the prototypes,
skipping targets that are not themselves prototypes and deduplicating the
required scopes (the code takes set(required_scopes); dedup keeps the key set
identical).  The initial random values (torch.randn * 0.01) are abstracted as
the function fresh from keys to values. -/
def init_influence_weights (protos : List (String × ActionEntity))
    (fresh : InfKey → AttributeSet) : Weights :=
  protos.flatMap (fun sp =>
    sp.2.potential_influences.flatMap (fun ti =>
      if (lookup_proto protos ti.1).isSome then
        (ti.2.dedup).map (fun sc => ((sp.1, ti.1, get_scope_key sc),
          fresh (sp.1, ti.1, get_scope_key sc)))
      else []))

/-- training.save_weights (training.py lines 107-116): saving an empty table
only warns and writes nothing (none); otherwise the state_dict — here the
flattened table itself — is written. -/
def save_weights (w : Weights) : Option Weights :=
  if w = [] then none else some w

/-- training.load_weights (training.py lines 118-144): re-initialize the
structure from the prototypes first, then, when a snapshot exists, overlay the
saved value for every matching key (load_state_dict with strict=False), keeping
the freshly initialized value for keys missing from the snapshot and ignoring
unexpected snapshot keys.  A missing or unreadable file (snapshot = none) keeps
the freshly initialized table. -/
def load_weights (protos : List (String × ActionEntity)) (snapshot : Option Weights)
    (fresh : InfKey → AttributeSet) : Weights :=
  let w := init_influence_weights protos fresh
  match snapshot with
  | none => w
  | some sd => w.map (fun kv => (kv.1, (lookupWeights sd kv.1).getD kv.2))

/-- game_logic.calculate_weights (game_logic.py lines 50-55): the context
weights derived from the two hp ratios. -/
structure ContextWeights where
  attack : ℚ
  defense : ℚ
  support : ℚ
deriving DecidableEq, Repr

/-- game_logic.calculate_weights: attack weight 1 + (1 - opponent ratio),
defense weight 1 + (1 - player ratio), support weight 1. -/
def calculate_weights (player_hp_frac opponent_hp_frac : ℚ) : ContextWeights :=
  ⟨1 + (1 - opponent_hp_frac), 1 + (1 - player_hp_frac), 1⟩

/-- game_logic.evaluate_action (game_logic.py lines 58-96) and its tensor twin
training.evaluate_action_tensor (training.py lines 148-173): add the modifier
to the base attributes and weight the three components by the context weights
(the dict .get defaults of 1.0 never fire, since calculate_weights always
supplies all three keys). -/
def evaluate_action (action : ActionEntity) (weights : ContextWeights)
    (active_influence_modifier : AttributeSet) : ℚ :=
  let effective_attributes := action.base_attributes + active_influence_modifier
  effective_attributes.attack * weights.attack +
    effective_attributes.defense * weights.defense +
    effective_attributes.support * weights.support

/-- The scope matching test of pass 1:
required_scope is None or required_scope == chosen_scope
(game_logic.py line 150, training.py line 207). -/
def scope_matches (required chosen : Option Int) : Bool :=
  match required with
  | none => true
  | some r => chosen = some r

/-- Index of the first element of the list whose entity name equals the target,
the functional form of the inner scan for j (game_logic.py lines 159-165,
training.py lines 215-222). -/
def firstMatchIdx : List Choice → String → Option Nat
  | [], _ => none
  | (a, _) :: rest, t =>
    if a.name = t then some 0 else (firstMatchIdx rest t).map (· + 1)

/-- First position j in range(i+1, len(seq)) whose entity name equals the
target — the break-on-first-match scan of pass 1. -/
def firstTargetAfter (seq : List Choice) (i : Nat) (t : String) : Option Nat :=
  (firstMatchIdx (seq.drop (i + 1)) t).map (· + (i + 1))

/-- One iteration of the innermost rule loop of pass 1: if the required scope
matches the chosen scope and a learnable modifier exists for
(source, target, required scope), the modifier is destined for the first later
position matching the target name (none when the scope does not match, no
parameter exists, or no later position matches). -/
def rule_contribution (w : Option Weights) (seq : List Choice) (i : Nat)
    (action_i : ActionEntity) (chosen_scope_i : Option Int)
    (target_entity_name : String) (required_scope : Option Int) :
    Option (Nat × AttributeSet) :=
  if scope_matches required_scope chosen_scope_i then
    match get_influence_modifier w action_i.name target_entity_name required_scope with
    | some m => (firstTargetAfter seq i target_entity_name).map (fun j => (j, m))
    | none => none
  else none

/-- Pass 1 of the scorer, flattened: the list of (position, modifier)
contributions produced by the triple loop over positions i, influence targets
and required scopes (game_logic.py lines 142-165, training.py lines 200-222).
The defaultdict accumulation influences_in_sequence is recovered from this
list by influencesAt. -/
def ruleContributions (w : Option Weights) (seq : List Choice) :
    List (Nat × AttributeSet) :=
  seq.enum.flatMap (fun ic =>
    ic.2.1.potential_influences.flatMap (fun ti =>
      ti.2.filterMap (fun req =>
        rule_contribution w seq ic.1 ic.2.1 ic.2.2 ti.1 req)))

/-- The accumulated modifier for one position: the sum, in loop order, of all
pass-1 contributions keyed by that position (the defaultdict entry
influences_in_sequence[pos], zero when nothing accumulated there). -/
def influencesAt (w : Option Weights) (seq : List Choice) (pos : Nat) : AttributeSet :=
  ((ruleContributions w seq).filter (fun p => decide (p.1 = pos))).foldl
    (fun acc p => acc + p.2) 0

/-- The shared two-pass scorer: pass 1 accumulates influence modifiers, pass 2
sums evaluate_action over positions.  This is the loop body of
find_best_sequence (game_logic.py lines 138-173, with the context weights
precomputed) and of calculate_sequence_score_with_weights
(training.py lines 195-232).  The game_logic guard that skips pass 1 when the
global table is None is subsumed: get_influence_modifier with w = none always
returns none, so every contribution vanishes. -/
def score_sequence (w : Option Weights) (seq : List Choice)
    (context_weights : ContextWeights) : ℚ :=
  seq.enum.foldl
    (fun acc ic => acc + evaluate_action ic.2.1 context_weights (influencesAt w seq ic.1)) 0

/-- training.calculate_sequence_score_with_weights (training.py lines 176-232):
an empty sequence short-circuits to zero (the requires_grad bookkeeping of the
returned tensor has no rational counterpart); otherwise the two-pass scorer
runs under the context weights computed from the two hp ratios. -/
def calculate_sequence_score_with_weights (w : Option Weights) (seq : List Choice)
    (player_hp_frac opponent_hp_frac : ℚ) : ℚ :=
  match seq with
  | [] => 0
  | _ => score_sequence w seq (calculate_weights player_hp_frac opponent_hp_frac)

/-- Hand expansion of find_best_sequence (game_logic.py lines 114-126): an
entity with a truthy scope list (non-None and nonempty) yields one choice per
scope option and is never offered scopeless (the commented-out alternative is
not enabled); an entity with scope None or [] yields the single choice
(entity, None). -/
def expand_choices (hand : List ActionEntity) : List Choice :=
  hand.flatMap (fun entity =>
    match entity.scope with
    | some scope_options =>
      if scope_options = [] then [(entity, none)]
      else scope_options.map (fun sc => (entity, some sc))
    | none => [(entity, none)])

/-- Each element of the pool paired with the remaining pool in order; the
selection step underlying itertools.permutations. -/
def selections {α : Type} : List α → List (α × List α)
  | [] => []
  | x :: xs => (x, xs) :: (selections xs).map (fun p => (p.1, x :: p.2))

/-- itertools.permutations(pool, k): all ordered arrangements of k distinct
positions of the pool, in the library's index-lexicographic order. -/
def kperms {α : Type} : Nat → List α → List (List α)
  | 0, _ => [[]]
  | Nat.succ k, xs =>
    (selections xs).flatMap (fun p => (kperms k p.2).map (fun rest => p.1 :: rest))

/-- The candidate enumeration of find_best_sequence (game_logic.py
lines 131-136): for k in range(len(choices) + 1), all k-permutations of the
expanded choices, the empty sequence first. -/
def candidate_sequences (choices : List Choice) : List (List Choice) :=
  (List.range (choices.length + 1)).flatMap (fun k => kperms k choices)

/-- The strict-improvement test of the search loop: a candidate score beats the
running maximum, which starts at -inf (modelled as none). -/
def beats (s : ℚ) : Option ℚ → Bool
  | none => true
  | some v => decide (v < s)

/-- game_logic.find_best_sequence (game_logic.py lines 99-180): compute the
context weights once from both heroes' hp ratios, expand the hand into action
choices, enumerate every permutation of every sub-size, score each with the
two-pass scorer and keep the first candidate whose score strictly exceeds the
running maximum (initially -inf, modelled by the none score). -/
def find_best_sequence (w : Option Weights) (player opponent : Player) :
    List Choice × Option ℚ :=
  let context_weights := calculate_weights player.hero.get_hp_frac opponent.hero.get_hp_frac
  let possible_action_choices := expand_choices player.hand
  (candidate_sequences possible_action_choices).foldl
    (fun acc c =>
      if beats (score_sequence w c context_weights) acc.2 then
        (c, some (score_sequence w c context_weights))
      else acc)
    ([], none)

/-- One labelled training sample (training.py lines 237-291, 337):
a context of two hp ratios, a named (action name, scope) sequence and a signed
outcome. -/
structure TrainingSample where
  player_hp_frac : ℚ
  opponent_hp_frac : ℚ
  sequence : List (String × Option Int)
  outcome : Int
deriving DecidableEq, Repr

/-- Sample resolution inside the batch loop (training.py lines 338-354):
each name is resolved through get_action_entity_instance (an unknown name
raises and invalidates the sample); a non-None chosen scope must be a member of
the entity's scope list (entity.scope None, or the scope not a member,
invalidates the sample); a None chosen scope is always accepted. -/
def resolve_sequence (protos : List (String × ActionEntity)) :
    List (String × Option Int) → Option (List Choice)
  | [] => some []
  | (name, scope) :: rest =>
    match lookup_proto protos name with
    | none => none
    | some entity =>
      match scope with
      | some s =>
        match entity.scope with
        | none => none
        | some opts =>
          if s ∈ opts then (resolve_sequence protos rest).map (fun r => (entity, some s) :: r)
          else none
      | none => (resolve_sequence protos rest).map (fun r => (entity, none) :: r)

/-- A sample is valid when its sequence resolves and is nonempty
(training.py line 356: `if not valid_sequence or not sequence_choices`). -/
def sample_valid (protos : List (String × ActionEntity)) (s : TrainingSample) : Bool :=
  match resolve_sequence protos s.sequence with
  | some (_ :: _) => true
  | _ => false

/-- The per-sample loss of the batch loop (training.py lines 337-380):
none for an invalid sample, otherwise -outcome * score of the resolved
sequence under the current weights.  The loss of a valid nonempty sequence
always requires grad in the source (the score accumulates from a
requires_grad tensor), so the loss.requires_grad filter never excludes one. -/
def sample_loss (w : Weights) (protos : List (String × ActionEntity))
    (s : TrainingSample) : Option ℚ :=
  match resolve_sequence protos s.sequence with
  | none => none
  | some [] => none
  | some seq =>
    some (-(s.outcome : ℚ) *
      calculate_sequence_score_with_weights (some w) seq s.player_hp_frac s.opponent_hp_frac)

/-- One batch of the training loop (training.py lines 330-392): accumulate the
losses of the valid samples, and if at least one sample was valid, drive one
optimizer step with their arithmetic mean; with zero valid samples no step
happens and the weights are returned unchanged.  The Adam step itself
(backward + optimizer.step) is abstracted as the update function step applied
to the current weights and the scalar batch loss that drives it. -/
def process_batch (step : Weights → ℚ → Weights) (protos : List (String × ActionEntity))
    (w : Weights) (batch : List TrainingSample) : Weights :=
  let losses := batch.filterMap (sample_loss w protos)
  if losses.isEmpty then w
  else step w ((losses.foldl (· + ·) 0) / (losses.length : ℚ))

/-- Spec-side dot product of an attribute vector with the three context
weights (spec section 4.2). -/
def dotProduct (v : AttributeSet) (cw : ContextWeights) : ℚ :=
  v.attack * cw.attack + v.defense * cw.defense + v.support * cw.support

/-- Spec-side legality of an action choice (spec sections 3 and 4.3): an action
whose scope options are nonempty appears only with one of those options, an
action with absent or empty scope options appears only with scope absent. -/
def legal_choice (a : ActionEntity) (sc : Option Int) : Prop :=
  match a.scope with
  | some opts => if opts = [] then sc = none else ∃ s, sc = some s ∧ s ∈ opts
  | none => sc = none

/-- The search loop of find_best_sequence as a fold, for stating invariants;
find_best_sequence unfolds to this fold applied to the candidate enumeration. -/
def searchFold {α : Type} (f : α → ℚ) (cs : List α) (acc : α × Option ℚ) : α × Option ℚ :=
  cs.foldl (fun acc c => if beats (f c) acc.2 then (c, some (f c)) else acc) acc

theorem selections_sound {α : Type} {xs : List α} {p : α × List α}
    (h : p ∈ selections xs) : p.1 ∈ xs ∧ ∀ z ∈ p.2, z ∈ xs := by
  induction xs generalizing p with
  | nil => simp [selections] at h
  | cons x xs ih =>
    simp only [selections, List.mem_cons, List.mem_map] at h
    rcases h with h | ⟨q, hq, rfl⟩
    · subst h
      exact ⟨List.mem_cons_self _ _, fun z hz => List.mem_cons_of_mem _ hz⟩
    · obtain ⟨h1, h2⟩ := ih hq
      refine ⟨List.mem_cons_of_mem _ h1, fun z hz => ?_⟩
      rcases List.mem_cons.mp hz with rfl | hz
      · exact List.mem_cons_self _ _
      · exact List.mem_cons_of_mem _ (h2 z hz)

theorem selections_mem_of_mem {α : Type} [DecidableEq α] {a : α} {xs : List α}
    (h : a ∈ xs) : (a, xs.erase a) ∈ selections xs := by
  induction xs with
  | nil => simp at h
  | cons x xs ih =>
    by_cases hxa : x = a
    · subst hxa
      simp [selections, List.erase_cons_head]
    · rcases List.mem_cons.mp h with rfl | hmem
      · exact absurd rfl hxa
      · have : (a, xs.erase a) ∈ selections xs := ih hmem
        rw [List.erase_cons_tail]
        · simp only [selections, List.mem_cons, List.mem_map]
          exact Or.inr ⟨(a, xs.erase a), this, rfl⟩
        · simp [hxa]

theorem kperms_sound {α : Type} {k : Nat} {xs l : List α}
    (h : l ∈ kperms k xs) : l.length = k ∧ ∀ x ∈ l, x ∈ xs := by
  induction k generalizing xs l with
  | zero => simp [kperms] at h; simp [h]
  | succ k ih =>
    simp only [kperms, List.mem_flatMap, List.mem_map] at h
    obtain ⟨p, hp, rest, hrest, rfl⟩ := h
    obtain ⟨hlen, hmem⟩ := ih hrest
    obtain ⟨hp1, hp2⟩ := selections_sound hp
    refine ⟨by simp [hlen], fun x hx => ?_⟩
    rcases List.mem_cons.mp hx with rfl | hx
    · exact hp1
    · exact hp2 x (hmem x hx)

theorem subperm_erase_of_cons_subperm {α : Type} [DecidableEq α] {a : α} {l xs : List α}
    (h : List.Subperm (a :: l) xs) : List.Subperm l (xs.erase a) := by
  have ha : a ∈ xs := h.subset (List.mem_cons_self a l)
  rw [List.subperm_ext_iff] at h ⊢
  intro x hx
  have hx' := h x (List.mem_cons_of_mem a hx)
  by_cases hxa : x = a
  · subst hxa
    rw [List.count_cons_self] at hx'
    rw [List.count_erase_self]
    omega
  · rw [List.count_cons_of_ne hxa] at hx'
    rw [List.count_erase_of_ne hxa]
    exact hx'

theorem mem_kperms_of_subperm {α : Type} [DecidableEq α] {l xs : List α}
    (h : List.Subperm l xs) : l ∈ kperms l.length xs := by
  induction l generalizing xs with
  | nil => simp [kperms]
  | cons a l ih =>
    have ha : a ∈ xs := h.subset (List.mem_cons_self a l)
    have h2 : List.Subperm l (xs.erase a) := subperm_erase_of_cons_subperm h
    have h3 := ih h2
    simp only [List.length_cons, kperms, List.mem_flatMap, List.mem_map]
    exact ⟨(a, xs.erase a), selections_mem_of_mem ha, l, h3, rfl⟩

theorem mem_candidate_sequences_of_subperm {l choices : List Choice}
    (h : List.Subperm l choices) : l ∈ candidate_sequences choices := by
  have hlen : l.length ≤ choices.length := h.length_le
  simp only [candidate_sequences, List.mem_flatMap, List.mem_range]
  exact ⟨l.length, by omega, mem_kperms_of_subperm h⟩

theorem candidate_sequences_cons (choices : List Choice) :
    candidate_sequences choices =
      [] :: ((List.range choices.length).map Nat.succ).flatMap (fun k => kperms k choices) := by
  unfold candidate_sequences
  rw [List.range_succ_eq_map]
  simp [kperms]

theorem searchFold_invariant {α : Type} (f : α → ℚ) (cs : List α) (b : α)
    (res : α × Option ℚ) (hres : searchFold f cs (b, some (f b)) = res) :
    res.2 = some (f res.1) ∧ f b ≤ f res.1 ∧ (∀ c ∈ cs, f c ≤ f res.1) ∧
      (res.1 = b ∨ (f b < f res.1 ∧ ∃ i : Nat, cs[i]? = some res.1 ∧
        ∀ (j : Nat) (d : α), j < i → cs[j]? = some d → f d < f res.1)) := by
  induction cs generalizing b with
  | nil =>
    simp only [searchFold, List.foldl_nil] at hres
    subst hres
    exact ⟨rfl, le_refl _, by simp, Or.inl rfl⟩
  | cons c rest ih =>
    simp only [searchFold, List.foldl_cons] at hres
    by_cases hbc : f b < f c
    · rw [show beats (f c) (some (f b)) = true by simp [beats, hbc]] at hres
      simp only [if_pos] at hres
      obtain ⟨h1, h2, h3, h4⟩ := ih c hres
      refine ⟨h1, le_of_lt (lt_of_lt_of_le hbc h2), ?_, ?_⟩
      · intro x hx
        rcases List.mem_cons.mp hx with rfl | hx
        · exact h2
        · exact h3 x hx
      · rcases h4 with hc | ⟨hlt, i, hi, hprev⟩
        · refine Or.inr ⟨by rw [hc]; exact hbc, 0, ?_, ?_⟩
          · rw [List.getElem?_cons_zero, hc]
          · intro j d hj
            exact absurd hj (Nat.not_lt_zero j)
        · refine Or.inr ⟨hbc.trans hlt, i + 1, by simpa using hi, ?_⟩
          intro j d hj hd
          match j with
          | 0 =>
            rw [List.getElem?_cons_zero] at hd
            cases hd
            exact hlt
          | Nat.succ j' =>
            rw [List.getElem?_cons_succ] at hd
            exact hprev j' d (by omega) hd
    · rw [show beats (f c) (some (f b)) = false by simp [beats]; exact not_lt.mp hbc] at hres
      simp only [if_neg, Bool.false_eq_true, not_false_eq_true] at hres
      obtain ⟨h1, h2, h3, h4⟩ := ih b hres
      refine ⟨h1, h2, ?_, ?_⟩
      · intro x hx
        rcases List.mem_cons.mp hx with rfl | hx
        · exact le_trans (not_lt.mp hbc) h2
        · exact h3 x hx
      · rcases h4 with hc | ⟨hlt, i, hi, hprev⟩
        · exact Or.inl hc
        · refine Or.inr ⟨hlt, i + 1, by simpa using hi, ?_⟩
          intro j d hj hd
          match j with
          | 0 =>
            rw [List.getElem?_cons_zero] at hd
            cases hd
            exact lt_of_le_of_lt (not_lt.mp hbc) hlt
          | Nat.succ j' =>
            rw [List.getElem?_cons_succ] at hd
            exact hprev j' d (by omega) hd

theorem mem_of_getElem?_eq_some {α : Type} {l : List α} {i : Nat} {a : α}
    (h : l[i]? = some a) : a ∈ l := by
  obtain ⟨hlt, rfl⟩ := List.getElem?_eq_some.mp h
  exact List.getElem_mem hlt

theorem score_sequence_nil (w : Option Weights) (cw : ContextWeights) :
    score_sequence w [] cw = 0 := rfl

theorem searchFold_start {α : Type} (f : α → ℚ) (c : α) (rest : List α) (b : α) :
    searchFold f (c :: rest) (b, none) = searchFold f rest (c, some (f c)) := by
  simp [searchFold, beats]

theorem find_best_sequence_eq_searchFold (w : Option Weights) (p o : Player) :
    find_best_sequence w p o =
      searchFold
        (fun c => score_sequence w c (calculate_weights p.hero.get_hp_frac o.hero.get_hp_frac))
        (candidate_sequences (expand_choices p.hand)) ([], none) := rfl

/-- The collected behaviour of the search loop: the returned score is the score
of the returned sequence, every enumerated candidate scores no higher, the
returned sequence is the first enumerated candidate attaining the maximum, its
score is at least the empty sequence's zero, and a nonempty winner's score is
strictly positive. -/
theorem find_best_properties (w : Option Weights) (p o : Player) :
    (find_best_sequence w p o).2 =
      some (score_sequence w (find_best_sequence w p o).1
        (calculate_weights p.hero.get_hp_frac o.hero.get_hp_frac)) ∧
    (∀ c ∈ candidate_sequences (expand_choices p.hand),
      score_sequence w c (calculate_weights p.hero.get_hp_frac o.hero.get_hp_frac) ≤
        score_sequence w (find_best_sequence w p o).1
          (calculate_weights p.hero.get_hp_frac o.hero.get_hp_frac)) ∧
    (∃ i : Nat, (candidate_sequences (expand_choices p.hand))[i]? =
        some (find_best_sequence w p o).1 ∧
      ∀ (j : Nat) (d : List Choice), j < i →
        (candidate_sequences (expand_choices p.hand))[j]? = some d →
        score_sequence w d (calculate_weights p.hero.get_hp_frac o.hero.get_hp_frac) <
          score_sequence w (find_best_sequence w p o).1
            (calculate_weights p.hero.get_hp_frac o.hero.get_hp_frac)) ∧
    0 ≤ score_sequence w (find_best_sequence w p o).1
        (calculate_weights p.hero.get_hp_frac o.hero.get_hp_frac) ∧
    ((find_best_sequence w p o).1 ≠ [] →
      0 < score_sequence w (find_best_sequence w p o).1
        (calculate_weights p.hero.get_hp_frac o.hero.get_hp_frac)) := by
  set cw := calculate_weights p.hero.get_hp_frac o.hero.get_hp_frac with hcw
  set f : List Choice → ℚ := fun c => score_sequence w c cw with hf
  set choices := expand_choices p.hand with hchoices
  set rest := ((List.range choices.length).map Nat.succ).flatMap (fun k => kperms k choices)
    with hrest
  have hcands : candidate_sequences choices = [] :: rest := candidate_sequences_cons choices
  have hres : searchFold f rest ([], some (f [])) = find_best_sequence w p o := by
    rw [find_best_sequence_eq_searchFold, hcands, searchFold_start]
  have hzero : f [] = 0 := rfl
  obtain ⟨h1, h2, h3, h4⟩ := searchFold_invariant f rest [] (find_best_sequence w p o) hres
  refine ⟨h1, ?_, ?_, ?_, ?_⟩
  · intro c hc
    rw [hcands] at hc
    rcases List.mem_cons.mp hc with rfl | hc
    · exact h2
    · exact h3 c hc
  · rcases h4 with heq | ⟨hlt, i, hi, hprev⟩
    · refine ⟨0, ?_, ?_⟩
      · rw [hcands, List.getElem?_cons_zero, heq]
      · intro j d hj
        exact absurd hj (Nat.not_lt_zero j)
    · refine ⟨i + 1, ?_, ?_⟩
      · rw [hcands, List.getElem?_cons_succ]
        exact hi
      · intro j d hj hd
        match j with
        | 0 =>
          rw [hcands, List.getElem?_cons_zero] at hd
          cases hd
          rw [show score_sequence w [] cw = f [] from rfl, hzero]
          rw [hzero] at hlt
          exact hlt
        | Nat.succ j' =>
          rw [hcands, List.getElem?_cons_succ] at hd
          exact hprev j' d (by omega) hd
  · rw [← hzero]
    exact h2
  · intro hne
    rcases h4 with heq | ⟨hlt, _⟩
    · exact absurd heq hne
    · rw [hzero] at hlt
      exact hlt

theorem expand_choices_legal {hand : List ActionEntity} {a : ActionEntity} {sc : Option Int}
    (h : (a, sc) ∈ expand_choices hand) : legal_choice a sc := by
  simp only [expand_choices, List.mem_flatMap] at h
  obtain ⟨e, _, hmem⟩ := h
  cases hsc : e.scope with
  | none =>
    rw [hsc] at hmem
    simp only [List.mem_singleton, Prod.mk.injEq] at hmem
    obtain ⟨rfl, rfl⟩ := hmem
    simp [legal_choice, hsc]
  | some opts =>
    rw [hsc] at hmem
    have hmem' : (a, sc) ∈
        (if opts = [] then [(e, (none : Option Int))]
          else opts.map (fun s => (e, some s))) := hmem
    by_cases hopts : opts = []
    · rw [if_pos hopts] at hmem'
      simp only [List.mem_singleton, Prod.mk.injEq] at hmem'
      obtain ⟨rfl, rfl⟩ := hmem'
      simp [legal_choice, hsc, hopts]
    · rw [if_neg hopts] at hmem'
      simp only [List.mem_map] at hmem'
      obtain ⟨s, hs, heq⟩ := hmem'
      obtain ⟨rfl, rfl⟩ :=
        (Prod.mk.injEq _ _ _ _).mp heq.symm
      simp only [legal_choice, hsc, if_neg hopts]
      exact ⟨s, rfl, hs⟩

/-- Concrete fixture: the 杀 entity of database.populate_initial_data
(database.py line 68): base attack 1, no scope options, no influences. -/
def shaEnt : ActionEntity :=
  { name := "杀", base_attributes := ⟨1, 0, 0⟩, timing := some 0 }

/-- Concrete fixture: 过河拆桥 (database.py lines 69, 79, 81): base support 1,
scope options [1, 2, 3], influences 杀 at required scope 1 and 顺手牵羊 at
required scope 2. -/
def guoheEnt : ActionEntity :=
  { name := "过河拆桥", base_attributes := ⟨0, 0, 1⟩,
    potential_influences := [("杀", [some 1]), ("顺手牵羊", [some 2])],
    timing := some 0, scope := some [1, 2, 3] }

/-- Concrete fixture: 顺手牵羊 (database.py lines 70, 83): base support 1,
scope options [1, 2], influence on 杀 at required scope 1. -/
def shunshouEnt : ActionEntity :=
  { name := "顺手牵羊", base_attributes := ⟨0, 0, 1⟩,
    potential_influences := [("杀", [some 1])],
    timing := some 0, scope := some [1, 2] }

/-- Concrete fixture: the prototype catalog holding the three entities above. -/
def testProtos : List (String × ActionEntity) :=
  [("杀", shaEnt), ("过河拆桥", guoheEnt), ("顺手牵羊", shunshouEnt)]

/-- Concrete fixture: a player at full health holding a single 杀. -/
def testPlayer : Player := ⟨"玩家1", ⟨"白板1", 4, 4⟩, [shaEnt]⟩

/-- Concrete fixture: an opponent at 2 of 4 hp with an empty hand. -/
def testOpponent : Player := ⟨"玩家2", ⟨"白板2", 4, 2⟩, []⟩

/-- C1: find_best_sequence scores every ordered arrangement of every sub-size
of the expanded action choices (every subpermutation of the choice list occurs
in the enumeration and is bounded by the winner), returns the score of the
returned arrangement, and keeps the first enumerated candidate attaining the
maximum: every strictly earlier candidate scores strictly lower, so a later
tie never displaces the incumbent. -/
theorem claim_C1 (w : Option Weights) (p o : Player) :
    (find_best_sequence w p o).2 =
      some (score_sequence w (find_best_sequence w p o).1
        (calculate_weights p.hero.get_hp_frac o.hero.get_hp_frac)) ∧
    (∀ c ∈ candidate_sequences (expand_choices p.hand),
      score_sequence w c (calculate_weights p.hero.get_hp_frac o.hero.get_hp_frac) ≤
        score_sequence w (find_best_sequence w p o).1
          (calculate_weights p.hero.get_hp_frac o.hero.get_hp_frac)) ∧
    (∀ l : List Choice, List.Subperm l (expand_choices p.hand) →
      score_sequence w l (calculate_weights p.hero.get_hp_frac o.hero.get_hp_frac) ≤
        score_sequence w (find_best_sequence w p o).1
          (calculate_weights p.hero.get_hp_frac o.hero.get_hp_frac)) ∧
    (∃ i : Nat, (candidate_sequences (expand_choices p.hand))[i]? =
        some (find_best_sequence w p o).1 ∧
      ∀ (j : Nat) (d : List Choice), j < i →
        (candidate_sequences (expand_choices p.hand))[j]? = some d →
        score_sequence w d (calculate_weights p.hero.get_hp_frac o.hero.get_hp_frac) <
          score_sequence w (find_best_sequence w p o).1
            (calculate_weights p.hero.get_hp_frac o.hero.get_hp_frac)) := by
  obtain ⟨h1, h2, h3, _, _⟩ := find_best_properties w p o
  exact ⟨h1, h2, fun l hl => h2 l (mem_candidate_sequences_of_subperm hl), h3⟩

theorem claim_C1_witness :
    List.Subperm ([] : List Choice) (expand_choices testPlayer.hand) ∧
    score_sequence none ([] : List Choice)
        (calculate_weights testPlayer.hero.get_hp_frac testOpponent.hero.get_hp_frac) ≤
      score_sequence none (find_best_sequence none testPlayer testOpponent).1
        (calculate_weights testPlayer.hero.get_hp_frac testOpponent.hero.get_hp_frac) :=
  ⟨List.nil_subperm,
    (claim_C1 none testPlayer testOpponent).2.2.1 [] List.nil_subperm⟩

/-- C6: the returned sequence never exceeds the number of expanded action
choices, and every (action, scope) pair in it is legal: a nonempty scope-option
list forces a chosen member of that list, an absent or empty scope-option list
forces an absent scope. -/
theorem claim_C6 (w : Option Weights) (p o : Player) :
    (find_best_sequence w p o).1.length ≤ (expand_choices p.hand).length ∧
    ∀ (a : ActionEntity) (sc : Option Int),
      (a, sc) ∈ (find_best_sequence w p o).1 → legal_choice a sc := by
  obtain ⟨_, _, ⟨i, hi, _⟩, _, _⟩ := find_best_properties w p o
  have hmem : (find_best_sequence w p o).1 ∈ candidate_sequences (expand_choices p.hand) :=
    mem_of_getElem?_eq_some hi
  simp only [candidate_sequences, List.mem_flatMap, List.mem_range] at hmem
  obtain ⟨k, hk, hperm⟩ := hmem
  obtain ⟨hlen, hsub⟩ := kperms_sound hperm
  refine ⟨by rw [hlen]; omega, fun a sc hmem2 => ?_⟩
  exact expand_choices_legal (hsub _ hmem2)

/-- Concrete evaluation of the search on the fixture: a lone 杀 against an
opponent at half health is played alone, scoring 1 * (1 + 1/2) = 3/2. -/
theorem find_best_test_eval :
    find_best_sequence none testPlayer testOpponent = ([(shaEnt, none)], some (3 / 2)) := by
  norm_num [find_best_sequence, candidate_sequences, expand_choices, kperms, selections,
    score_sequence, influencesAt, ruleContributions, rule_contribution, get_influence_modifier,
    scope_matches, firstTargetAfter, firstMatchIdx, evaluate_action, calculate_weights,
    Hero.get_hp_frac, beats, testPlayer, testOpponent, shaEnt, List.range_succ,
    AttributeSet.add_def, AttributeSet.zero_def, AttributeSet.zero_attack,
    AttributeSet.zero_defense, AttributeSet.zero_support]

theorem claim_C6_witness :
    (find_best_sequence none testPlayer testOpponent).1.length ≤
      (expand_choices testPlayer.hand).length ∧
    legal_choice shaEnt none :=
  ⟨(claim_C6 none testPlayer testOpponent).1,
    (claim_C6 none testPlayer testOpponent).2 shaEnt none
      (by rw [find_best_test_eval]; exact List.mem_singleton.mpr rfl)⟩

/-- C9: find_best_sequence is a pure function of the weight table and the two
player states — the embedding of the source, whose enumeration order and
tie-breaking are fixed by list order, returns identical sequences and scores
for identical inputs. -/
theorem claim_C9 (w₁ w₂ : Option Weights) (p₁ p₂ o₁ o₂ : Player)
    (hw : w₁ = w₂) (hp : p₁ = p₂) (ho : o₁ = o₂) :
    find_best_sequence w₁ p₁ o₁ = find_best_sequence w₂ p₂ o₂ := by
  subst hw
  subst hp
  subst ho
  rfl

theorem claim_C9_witness :
    (none : Option Weights) = none ∧ testPlayer = testPlayer ∧
    find_best_sequence none testPlayer testOpponent =
      find_best_sequence none testPlayer testOpponent :=
  ⟨rfl, rfl, claim_C9 none none testPlayer testPlayer testOpponent testOpponent rfl rfl rfl⟩

/-- C10: the returned score is at least zero, because the empty sequence
(score exactly zero) is the first enumerated candidate; a nonempty returned
sequence must have strictly beaten a running maximum that was already at least
zero, so its score is strictly positive. -/
theorem claim_C10 (w : Option Weights) (p o : Player) (s : ℚ)
    (hs : (find_best_sequence w p o).2 = some s) :
    0 ≤ s ∧ ((find_best_sequence w p o).1 ≠ [] → 0 < s) := by
  obtain ⟨h1, _, _, h4, h5⟩ := find_best_properties w p o
  rw [h1] at hs
  obtain rfl := Option.some.inj hs
  exact ⟨h4, h5⟩

theorem claim_C10_witness : (0 : ℚ) ≤ 3 / 2 ∧ (0 : ℚ) < 3 / 2 := by
  have h := claim_C10 none testPlayer testOpponent (3 / 2) (by rw [find_best_test_eval])
  exact ⟨h.1, h.2 (by rw [find_best_test_eval]; simp)⟩

theorem firstMatchIdx_spec {l : List Choice} {t : String} {j : Nat}
    (h : firstMatchIdx l t = some j) :
    (∃ b scb, l[j]? = some (b, scb) ∧ b.name = t) ∧
      ∀ (k : Nat) (c : ActionEntity) (scc : Option Int),
        k < j → l[k]? = some (c, scc) → c.name ≠ t := by
  induction l generalizing j with
  | nil => simp [firstMatchIdx] at h
  | cons x rest ih =>
    obtain ⟨b0, sc0⟩ := x
    simp only [firstMatchIdx] at h
    by_cases hb : b0.name = t
    · rw [if_pos hb] at h
      cases h
      refine ⟨⟨b0, sc0, List.getElem?_cons_zero, hb⟩, ?_⟩
      intro k c scc hk
      exact absurd hk (Nat.not_lt_zero k)
    · rw [if_neg hb] at h
      obtain ⟨j', hj', rfl⟩ := Option.map_eq_some'.mp h
      obtain ⟨h1, h2⟩ := ih hj'
      constructor
      · obtain ⟨b, scb, hb1, hb2⟩ := h1
        exact ⟨b, scb, by simpa using hb1, hb2⟩
      · intro k c scc hk hkc
        match k with
        | 0 =>
          rw [List.getElem?_cons_zero] at hkc
          cases hkc
          exact hb
        | Nat.succ k' =>
          rw [List.getElem?_cons_succ] at hkc
          exact h2 k' c scc (by omega) hkc

theorem firstTargetAfter_spec {seq : List Choice} {i : Nat} {t : String} {j : Nat}
    (h : firstTargetAfter seq i t = some j) :
    i < j ∧ (∃ b scb, seq[j]? = some (b, scb) ∧ b.name = t) ∧
      ∀ (l : Nat) (c : ActionEntity) (scc : Option Int),
        i < l → l < j → seq[l]? = some (c, scc) → c.name ≠ t := by
  obtain ⟨j', hj', rfl⟩ := Option.map_eq_some'.mp h
  obtain ⟨⟨b, scb, hb1, hb2⟩, h2⟩ := firstMatchIdx_spec hj'
  refine ⟨by omega, ⟨b, scb, ?_, hb2⟩, ?_⟩
  · rw [List.getElem?_drop] at hb1
    rw [show j' + (i + 1) = (i + 1) + j' from by omega]
    exact hb1
  · intro l c scc hil hlj hlc
    have hk : l - (i + 1) < j' := by omega
    have : (seq.drop (i + 1))[l - (i + 1)]? = some (c, scc) := by
      rw [List.getElem?_drop, show i + 1 + (l - (i + 1)) = l from by omega]
      exact hlc
    exact h2 (l - (i + 1)) c scc hk this

/-- C2: a matching influence rule at position i whose parameter exists
contributes its modifier to exactly the first later position whose action name
equals the target — that position is strictly after i, carries the target
name, and no strictly earlier position after i does; when no later position
matches, the rule contributes nowhere. -/
theorem claim_C2 (w : Option Weights) (seq : List Choice) (i : Nat)
    (a : ActionEntity) (sc : Option Int) (t : String) (scopes : List (Option Int))
    (req : Option Int) (m : AttributeSet)
    (hi : seq[i]? = some (a, sc))
    (ht : (t, scopes) ∈ a.potential_influences)
    (hr : req ∈ scopes)
    (hm : scope_matches req sc = true)
    (hlook : get_influence_modifier w a.name t req = some m) :
    rule_contribution w seq i a sc t req =
      (firstTargetAfter seq i t).map (fun j => (j, m)) ∧
    (∀ j : Nat, firstTargetAfter seq i t = some j →
      i < j ∧ (∃ b scb, seq[j]? = some (b, scb) ∧ b.name = t) ∧
        ∀ (l : Nat) (c : ActionEntity) (scc : Option Int),
          i < l → l < j → seq[l]? = some (c, scc) → c.name ≠ t) ∧
    (firstTargetAfter seq i t = none → rule_contribution w seq i a sc t req = none) := by
  refine ⟨?_, ?_, ?_⟩
  · unfold rule_contribution
    rw [if_pos hm, hlook]
  · intro j hj
    exact firstTargetAfter_spec hj
  · intro hnone
    unfold rule_contribution
    rw [if_pos hm, hlook, hnone]
    rfl

/-- Concrete fixture weight table: the single learnable parameter for
(过河拆桥, 杀, scope 1), set to attack 1. -/
def testWeights : Weights := [(("过河拆桥", "杀", "1"), ⟨1, 0, 0⟩)]

/-- Concrete fixture sequence: 过河拆桥 at scope 1 followed by 杀. -/
def testSeq : List Choice := [(guoheEnt, some 1), (shaEnt, none)]

theorem claim_C2_witness :
    rule_contribution (some testWeights) testSeq 0 guoheEnt (some 1) "杀" (some 1) =
      some (1, (⟨1, 0, 0⟩ : AttributeSet)) ∧ (0 : Nat) < 1 := by
  have h := claim_C2 (some testWeights) testSeq 0 guoheEnt (some 1) "杀" [some 1] (some 1)
    ⟨1, 0, 0⟩ rfl (by simp [guoheEnt]) (by simp) rfl rfl
  exact ⟨by rw [h.1]; rfl, (h.2.1 1 rfl).1⟩

/-- C5: single-action evaluation is exactly the dot product of the base
attributes plus the modifier with the three context weights, and a position
that receives no pass-1 contribution carries the zero modifier. -/
theorem claim_C5 :
    (∀ (a : ActionEntity) (cw : ContextWeights) (m : AttributeSet),
      evaluate_action a cw m = dotProduct (a.base_attributes + m) cw) ∧
    (∀ (w : Option Weights) (seq : List Choice) (i : Nat),
      (∀ p ∈ ruleContributions w seq, p.1 ≠ i) → influencesAt w seq i = 0) := by
  constructor
  · intro a cw m
    rfl
  · intro w seq i h
    unfold influencesAt
    have : (ruleContributions w seq).filter (fun p => decide (p.1 = i)) = [] := by
      rw [List.filter_eq_nil_iff]
      intro p hp
      simp only [decide_eq_true_eq]
      exact h p hp
    rw [this]
    rfl

theorem claim_C5_witness :
    evaluate_action shaEnt ⟨1, 1, 1⟩ 0 = dotProduct (shaEnt.base_attributes + 0) ⟨1, 1, 1⟩ ∧
    influencesAt none testSeq 0 = 0 := by
  refine ⟨claim_C5.1 shaEnt ⟨1, 1, 1⟩ 0, claim_C5.2 none testSeq 0 ?_⟩
  intro p hp
  simp [ruleContributions, rule_contribution, get_influence_modifier, testSeq] at hp

/-- C8: the empty sequence scores exactly zero for every weight-table state and
every pair of hp ratios. -/
theorem claim_C8 (w : Option Weights) (player_hp_frac opponent_hp_frac : ℚ) :
    calculate_sequence_score_with_weights w [] player_hp_frac opponent_hp_frac = 0 := rfl

theorem ruleContributions_no_params (w : Option Weights) (seq : List Choice)
    (hw : ∀ (s t : String) (sc : Option Int), get_influence_modifier w s t sc = none) :
    ruleContributions w seq = [] := by
  unfold ruleContributions
  rw [List.flatMap_eq_nil_iff]
  intro ic _
  rw [List.flatMap_eq_nil_iff]
  intro ti _
  rw [List.filterMap_eq_nil_iff]
  intro req _
  unfold rule_contribution
  rw [hw]
  simp

theorem influencesAt_no_params (w : Option Weights) (seq : List Choice)
    (hw : ∀ (s t : String) (sc : Option Int), get_influence_modifier w s t sc = none)
    (i : Nat) : influencesAt w seq i = 0 := by
  unfold influencesAt
  rw [ruleContributions_no_params w seq hw]
  rfl

theorem score_sequence_no_params (w : Option Weights) (seq : List Choice)
    (cw : ContextWeights)
    (hw : ∀ (s t : String) (sc : Option Int), get_influence_modifier w s t sc = none) :
    score_sequence w seq cw =
      seq.enum.foldl (fun acc ic => acc + evaluate_action ic.2.1 cw 0) 0 := by
  unfold score_sequence
  apply List.foldl_ext
  intro acc ic _
  rw [influencesAt_no_params w seq hw ic.1]

/-- C3 as amended: a lookup on the uninitialized table is not fatal — it
returns absent (after printing an error), exactly as an initialized table with
no parameters does, and scoring proceeds treating every influence modifier as
zero, returning the same score as under an initialized empty table. -/
theorem claim_C3 :
    (∀ (s t : String) (sc : Option Int), get_influence_modifier none s t sc = none) ∧
    (∀ (seq : List Choice) (pr opr : ℚ),
      calculate_sequence_score_with_weights none seq pr opr =
        calculate_sequence_score_with_weights (some []) seq pr opr) := by
  have hwn : ∀ (s t : String) (sc : Option Int), get_influence_modifier none s t sc = none :=
    fun _ _ _ => rfl
  have hwe : ∀ (s t : String) (sc : Option Int),
      get_influence_modifier (some []) s t sc = none :=
    fun _ _ _ => rfl
  refine ⟨hwn, fun seq pr opr => ?_⟩
  unfold calculate_sequence_score_with_weights
  cases seq with
  | nil => rfl
  | cons c rest =>
    rw [score_sequence_no_params none _ _ hwn, score_sequence_no_params (some []) _ _ hwe]

/-- Counterexample to C3 as stated: with the weight table uninitialized (None),
the lookup for the 过河拆桥→杀 rule returns plain absence rather than failing,
and scoring the two-card sequence succeeds, producing exactly the score that
all-zero modifiers would give — the uninitialized state is silently treated as
zero influence instead of being fatal. -/
theorem claim_C3_counterexample :
    get_influence_modifier none "过河拆桥" "杀" (some 1) = none ∧
    calculate_sequence_score_with_weights none testSeq 1 1 =
      evaluate_action guoheEnt (calculate_weights 1 1) 0 +
        evaluate_action shaEnt (calculate_weights 1 1) 0 := by
  refine ⟨rfl, ?_⟩
  norm_num [calculate_sequence_score_with_weights, score_sequence, influencesAt,
    ruleContributions, rule_contribution, get_influence_modifier, scope_matches,
    firstTargetAfter, firstMatchIdx, evaluate_action, calculate_weights, testSeq,
    List.enum, List.enumFrom, guoheEnt, shaEnt, AttributeSet.add_def, AttributeSet.zero_def,
    AttributeSet.zero_attack, AttributeSet.zero_defense, AttributeSet.zero_support]

theorem init_influence_weights_eq (protos : List (String × ActionEntity))
    (f g : InfKey → AttributeSet) :
    init_influence_weights protos f =
      ((init_influence_weights protos g).map Prod.fst).map (fun k => (k, f k)) := by
  unfold init_influence_weights
  rw [List.map_flatMap, List.map_flatMap]
  congr 1
  funext sp
  rw [List.map_flatMap, List.map_flatMap]
  congr 1
  funext ti
  by_cases h : (lookup_proto protos ti.1).isSome
  · rw [if_pos h, if_pos h]
    simp [List.map_map, Function.comp]
  · rw [if_neg h, if_neg h]
    rfl

theorem lookup_keyed_map {K : List InfKey} {f : InfKey → AttributeSet} {k : InfKey}
    (hnd : K.Nodup) (hk : k ∈ K) :
    lookupWeights (K.map (fun x => (x, f x))) k = some (f k) := by
  induction K with
  | nil => simp at hk
  | cons x xs ih =>
    simp only [List.map_cons, lookupWeights]
    rcases List.mem_cons.mp hk with rfl | hmem
    · rw [if_pos rfl]
    · have hx : x ≠ k := by
        intro heq
        subst heq
        exact (List.nodup_cons.mp hnd).1 hmem
      rw [if_neg hx]
      exact ih (List.nodup_cons.mp hnd).2 hmem

/-- C7: saving a nonempty freshly initialized table and loading it back over
the same catalog restores every parameter exactly; and a partial snapshot is
overlaid without error — a structure key present in the snapshot takes the
snapshot value, a structure key absent from the snapshot keeps its freshly
initialized value.  (Python dict keys are unique, so the flattened key list of
an initialized table has no duplicates; this is the Nodup hypothesis.) -/
theorem claim_C7 (protos : List (String × ActionEntity))
    (fresh fresh' : InfKey → AttributeSet)
    (hne : init_influence_weights protos fresh ≠ [])
    (hnd : ((init_influence_weights protos fresh).map Prod.fst).Nodup) :
    load_weights protos (save_weights (init_influence_weights protos fresh)) fresh' =
      init_influence_weights protos fresh ∧
    (∀ (sd : Weights) (k : InfKey) (v : AttributeSet),
      (k, v) ∈ init_influence_weights protos fresh' → lookupWeights sd k = none →
        (k, v) ∈ load_weights protos (some sd) fresh') ∧
    (∀ (sd : Weights) (k : InfKey) (v u : AttributeSet),
      (k, v) ∈ init_influence_weights protos fresh' → lookupWeights sd k = some u →
        (k, u) ∈ load_weights protos (some sd) fresh') := by
  have hload : ∀ (sd : Weights) (f' : InfKey → AttributeSet),
      load_weights protos (some sd) f' =
        (init_influence_weights protos f').map
          (fun kv => (kv.1, (lookupWeights sd kv.1).getD kv.2)) :=
    fun _ _ => rfl
  refine ⟨?_, ?_, ?_⟩
  · have hsave : save_weights (init_influence_weights protos fresh) =
        some (init_influence_weights protos fresh) := by
      unfold save_weights
      rw [if_neg hne]
    have hkey : init_influence_weights protos fresh =
        ((init_influence_weights protos fresh).map Prod.fst).map (fun k => (k, fresh k)) :=
      init_influence_weights_eq protos fresh fresh
    rw [hsave, hload, init_influence_weights_eq protos fresh' fresh, List.map_map]
    conv_rhs => rw [hkey]
    apply List.map_congr_left
    intro k hk
    have hlook : lookupWeights (init_influence_weights protos fresh) k = some (fresh k) := by
      rw [hkey]
      exact lookup_keyed_map hnd hk
    simp [Function.comp, hlook]
  · intro sd k v hmem hlook
    rw [hload]
    have := List.mem_map_of_mem (fun kv : InfKey × AttributeSet =>
      (kv.1, (lookupWeights sd kv.1).getD kv.2)) hmem
    simpa [hlook] using this
  · intro sd k v u hmem hlook
    rw [hload]
    have := List.mem_map_of_mem (fun kv : InfKey × AttributeSet =>
      (kv.1, (lookupWeights sd kv.1).getD kv.2)) hmem
    simpa [hlook] using this

theorem claim_C7_witness :
    load_weights testProtos
        (save_weights (init_influence_weights testProtos (fun _ => ⟨1, 2, 3⟩)))
        (fun _ => ⟨4, 5, 6⟩) =
      init_influence_weights testProtos (fun _ => ⟨1, 2, 3⟩) :=
  (claim_C7 testProtos (fun _ => ⟨1, 2, 3⟩) (fun _ => ⟨4, 5, 6⟩)
    (by decide) (by decide)).1

theorem filterMap_length_eq_filter_isSome {α β : Type} (F : α → Option β) (l : List α) :
    (l.filterMap F).length = (l.filter (fun a => (F a).isSome)).length := by
  induction l with
  | nil => rfl
  | cons x xs ih =>
    cases hx : F x with
    | none => simpa [List.filterMap_cons, hx, List.filter_cons] using ih
    | some v => simpa [List.filterMap_cons, hx, List.filter_cons] using ih

theorem sample_loss_isSome_eq_valid (w : Weights) (protos : List (String × ActionEntity))
    (s : TrainingSample) : (sample_loss w protos s).isSome = sample_valid protos s := by
  unfold sample_loss sample_valid
  cases h : resolve_sequence protos s.sequence with
  | none => rfl
  | some seq =>
    cases seq with
    | nil => rfl
    | cons c r => rfl

/-- C4: the loss driving one optimizer step is the arithmetic mean of the
per-sample losses -outcome * score over exactly the valid samples of the
batch — an invalid sample contributes to neither the numerator nor the
denominator — and a batch with zero valid samples performs no step, returning
the weights unchanged. -/
theorem claim_C4 (step : Weights → ℚ → Weights) (protos : List (String × ActionEntity))
    (w : Weights) (batch : List TrainingSample) :
    (batch.filterMap (sample_loss w protos)).length =
      (batch.filter (fun s => sample_valid protos s)).length ∧
    (∀ s ∈ batch, sample_valid protos s = false → sample_loss w protos s = none) ∧
    (∀ (s : TrainingSample) (seq : List Choice),
      resolve_sequence protos s.sequence = some seq → seq ≠ [] →
      sample_loss w protos s = some (-(s.outcome : ℚ) *
        calculate_sequence_score_with_weights (some w) seq
          s.player_hp_frac s.opponent_hp_frac)) ∧
    (batch.filterMap (sample_loss w protos) = [] →
      process_batch step protos w batch = w) ∧
    (batch.filterMap (sample_loss w protos) ≠ [] →
      process_batch step protos w batch =
        step w (((batch.filterMap (sample_loss w protos)).foldl (· + ·) 0) /
          ((batch.filterMap (sample_loss w protos)).length : ℚ))) := by
  refine ⟨?_, ?_, ?_, ?_, ?_⟩
  · rw [filterMap_length_eq_filter_isSome]
    congr 1
    apply List.filter_congr
    intro s _
    rw [sample_loss_isSome_eq_valid]
  · intro s _ hv
    have h := sample_loss_isSome_eq_valid w protos s
    rw [hv] at h
    cases hl : sample_loss w protos s with
    | none => rfl
    | some v =>
      rw [hl] at h
      simp at h
  · intro s seq hres hne
    unfold sample_loss
    rw [hres]
    cases seq with
    | nil => exact absurd rfl hne
    | cons c r => rfl
  · intro h
    unfold process_batch
    rw [h]
    rfl
  · intro h
    have hpb : process_batch step protos w batch =
        if (batch.filterMap (sample_loss w protos)).isEmpty = true then w
        else step w (((batch.filterMap (sample_loss w protos)).foldl (· + ·) 0) /
          ((batch.filterMap (sample_loss w protos)).length : ℚ)) := rfl
    have hemp : (batch.filterMap (sample_loss w protos)).isEmpty = false := by
      cases hl : batch.filterMap (sample_loss w protos) with
      | nil => exact absurd hl h
      | cons c r => rfl
    rw [hpb, hemp]
    rfl

/-- Concrete fixture: a valid training sample playing a lone 杀 in a full
health context with a winning outcome. -/
def validSample : TrainingSample :=
  { player_hp_frac := 1, opponent_hp_frac := 1, sequence := [("杀", none)], outcome := 1 }

/-- Concrete fixture: an invalid training sample naming an entity absent from
the catalog. -/
def invalidSample : TrainingSample :=
  { player_hp_frac := 1, opponent_hp_frac := 1, sequence := [("未知牌", none)], outcome := -1 }

/-- Concrete fixture: a batch holding one valid and one invalid sample. -/
def testBatch : List TrainingSample := [validSample, invalidSample]

theorem claim_C4_witness :
    sample_loss [] testProtos invalidSample = none ∧
    process_batch (fun w _ => w) testProtos [] testBatch =
      (fun (w : Weights) (_ : ℚ) => w) []
        (((testBatch.filterMap (sample_loss [] testProtos)).foldl (· + ·) 0) /
          ((testBatch.filterMap (sample_loss [] testProtos)).length : ℚ)) := by
  have h := claim_C4 (fun w _ => w) testProtos [] testBatch
  refine ⟨?_, ?_⟩
  · exact h.2.1 invalidSample (List.mem_cons_of_mem _ (List.mem_cons_self _ _)) rfl
  · exact h.2.2.2.2 (by
      intro hcontra
      have : (testBatch.filterMap (sample_loss [] testProtos)).length = 0 := by
        rw [hcontra]
        rfl
      rw [h.1] at this
      simp [testBatch, List.filter, sample_valid, resolve_sequence, validSample,
        invalidSample, testProtos, lookup_proto] at this)
